import Mathlib

/-!
Verification of the intent-routing and entity-matching core of `src/main.py`
(a Telegram chatbot front-end).  Python text is modelled as the list of
Unicode code points of the string (`Str := List Nat`); Python dictionaries
coming from the market-data JSON are modelled as records of optional strings;
the network collaborators (completion service, market-data service) are
modelled by explicit outcome parameters, and the per-user history store by a
function from user identifiers to turn lists.
-/

/-- Text: the list of Unicode code points of a Python `str`. -/

abbrev Str := List Nat

/-- Code points of a Lean string literal, used to transcribe the literals of
`main.py`. -/

def strLit (s : String) : Str := s.toList.map Char.toNat

/-- Whitespace, as recognised by `str.strip`, `str.split` and the regex class
`\s` (restricted to the ASCII whitespace code points; `main.py` applies all
three to the same text, so one consistent class is used throughout). -/

def pyIsSpace (n : Nat) : Bool :=
  n = 32 || n = 9 || n = 10 || n = 13 || n = 11 || n = 12

/-- One code point of `str.lower`: the simple case mapping, which is the
identity outside the uppercase ASCII range for the code points this program
manipulates. -/

def pyLower (n : Nat) : Nat := if 65 ≤ n ∧ n ≤ 90 then n + 32 else n

/-- One code point of `str.upper` (same restriction as `pyLower`). -/

def pyUpper (n : Nat) : Nat := if 97 ≤ n ∧ n ≤ 122 then n - 32 else n

/-- The four invisible code points removed by `_norm` in `main.py`:
ZWNJ `‌`, RLM `‏`, LRM `‎` and BOM `﻿`. -/

def isInvisChar (n : Nat) : Bool :=
  n = 0x200c || n = 0x200f || n = 0x200e || n = 0xfeff

/-- Python `str.strip()`: drop whitespace from both ends. -/

def stripWS (l : Str) : Str :=
  ((l.dropWhile pyIsSpace).reverse.dropWhile pyIsSpace).reverse

/-- Worker for `re.sub(r"\s+", " ", s)`: `sawSpace` records whether the
previous character belonged to a whitespace run (a run emits a single `' '`
when it starts and nothing afterwards). -/

def collapseGo (sawSpace : Bool) : Str → Str
  | [] => []
  | c :: cs =>
    if pyIsSpace c then (if sawSpace then [] else [32]) ++ collapseGo true cs
    else c :: collapseGo false cs

/-- Python `re.sub(r"\s+", " ", s)`: collapse each whitespace run to one
space. -/

def collapseWS (s : Str) : Str := collapseGo false s

/-- Python `pat in s` (substring containment). -/

def containsSub (pat : Str) : Str → Bool
  | [] => pat.isPrefixOf []
  | c :: cs => pat.isPrefixOf (c :: cs) || containsSub pat cs

/-- Maximal runs of characters satisfying `keep`, accumulating the current
run reversed in `cur`.  Instantiated with non-whitespace for `str.split()`
and with word characters for the symbol-guess regex. -/

def runsGo (keep : Nat → Bool) (cur : Str) : Str → List Str
  | [] => if cur.isEmpty then [] else [cur.reverse]
  | c :: cs =>
    if keep c then runsGo keep (c :: cur) cs
    else if cur.isEmpty then runsGo keep [] cs
    else cur.reverse :: runsGo keep [] cs

/-- Python `s.split()`: whitespace-separated tokens, no empties. -/

def splitWS (s : Str) : List Str := runsGo (fun c => !pyIsSpace c) [] s

/-- Worker for `s.replace(pat, "")`; `fuel` only forces structural
termination and never runs out, since it starts at the length of the text and
every step consumes at least one character. -/

def removePatGo (pat : Str) : Nat → Str → Str
  | _, [] => []
  | 0, s => s
  | fuel + 1, c :: cs =>
    if pat ≠ [] ∧ pat.isPrefixOf (c :: cs) then
      removePatGo pat fuel ((c :: cs).drop pat.length)
    else c :: removePatGo pat fuel cs

/-- Python `s.replace(pat, "")`: delete every (left-to-right, non-overlapping)
occurrence of `pat`.  An empty pattern deletes nothing, as in Python. -/

def removePat (pat : Str) (s : Str) : Str := removePatGo pat s.length s

/-- Remainder of `raw.split(maxsplit=1)` after the first token and the
whitespace run that follows it (empty when there is no second part). -/

def pySplit1Rest (s : Str) : Str :=
  ((s.dropWhile pyIsSpace).dropWhile (fun c => !pyIsSpace c)).dropWhile pyIsSpace

/-- Function `_norm` from `main.py`: drop the invisible characters, strip, lower-case,
collapse whitespace runs to single spaces. -/

def _norm (s : Str) : Str :=
  collapseWS ((stripWS (s.filter (fun c => !isInvisChar c))).map pyLower)

/-! ## Conversation memory (`history`, a per-user deque with `maxlen = MAX_TURNS * 2`) -/

/-- Constant `MAX_TURNS` from `main.py`. -/

def MAX_TURNS : Nat := 10

/-- One `{"role": ..., "content": ...}` history entry. -/

structure Turn where
  role : Str
  content : Str
deriving DecidableEq

/-- The last `cap` elements of a list (what a full `deque(maxlen=cap)`
retains). -/

def lastN (cap : Nat) (l : List α) : List α := l.drop (l.length - cap)

/-- Python `deque.append` on a deque with `maxlen = cap`: insert at the tail, evict
from the head when the length would exceed `cap`. -/

def dequeAppend (cap : Nat) (buf : List α) (x : α) : List α :=
  let l := buf ++ [x]
  l.drop (l.length - cap)

/-- The `history` defaultdict before any message: every user's buffer is
empty. -/

def emptyHistory : Nat → List Turn := fun _ => []

/-- Operation `history[uid].append(turn)` as a transformation of the whole store. -/

def appendTurn (h : Nat → List Turn) (uid : Nat) (t : Turn) : Nat → List Turn :=
  Function.update h uid (dequeAppend (MAX_TURNS * 2) (h uid) t)

/-- A sequence of appends to one user's buffer. -/

def appendTurns (h : Nat → List Turn) (uid : Nat) (ts : List Turn) : Nat → List Turn :=
  ts.foldl (fun h t => appendTurn h uid t) h

/-! ## Idempotence of `_norm` (claim C2) -/

/-! ## Group addressing gate, utterance cleaner, price-intent classifier -/

/-- Function `should_reply_in_group` from `main.py`.  `text` is the raw message text
(`msg.text`; the empty check models `if not msg.text`), `username` the bot's
handle (`context.bot.username or ""`), `callName` the configured
`BOT_CALL_NAME`, and `replyToBot` whether the message directly replies to a
message authored by the bot. -/

def should_reply_in_group (text username callName : Str) (replyToBot : Bool) : Bool :=
  if text.isEmpty then false
  else
    let t := _norm text
    let bu := _norm username
    let cn := _norm callName
    let cnCompact := cn.filter (fun c => c != 32)
    if cn.isPrefixOf t || cnCompact.isPrefixOf (t.filter (fun c => c != 32)) then true
    else if !bu.isEmpty && containsSub (64 :: bu) t then true
    else replyToBot

/-- Function `clean_user_text` from `main.py` (`callName` stands for the global
`BOT_CALL_NAME`). -/

def clean_user_text (text username callName : Str) : Str :=
  let raw0 := stripWS text
  let tN := _norm raw0
  let bn := _norm username
  let cn := _norm callName
  let cnCompact := cn.filter (fun c => c != 32)
  let raw1 :=
    if cn.isPrefixOf tN then stripWS (raw0.drop callName.length)
    else if cnCompact.isPrefixOf (tN.filter (fun c => c != 32)) then
      (if pySplit1Rest raw0 = [] then [] else stripWS (pySplit1Rest raw0))
    else raw0
  stripWS (if bn.isEmpty then raw1
    else stripWS (removePat (64 :: username.map pyLower) (removePat (64 :: username) raw1)))

/-- The keyword `"لحظه‌ای"` of `main.py`, which carries a ZWNJ (U+200C)
between its two halves. -/

def lahzeI : Str := strLit (r"لحظه") ++ [0x200c] ++ strLit (r"ای")

/-- Constant `PRICE_KEYWORDS` from `main.py` (a Python set; only membership is ever
used, so the model keeps it as a list). -/

def PRICE_KEYWORDS : List Str :=
  [strLit (r"قیمت"), strLit (r"نرخ"), strLit (r"چنده"), strLit (r"چند"),
   strLit (r"الان"), strLit (r"لحظه"), lahzeI, strLit (r"امروز"),
   strLit (r"دلار"), strLit (r"یورو"), strLit (r"پوند"), strLit (r"درهم"),
   strLit (r"لیر"), strLit (r"یوان"),
   strLit (r"سکه"), strLit (r"امامی"), strLit (r"بهار"), strLit (r"نیم"),
   strLit (r"ربع"), strLit (r"گرمی"),
   strLit (r"طلا"), strLit (r"طلای"), strLit (r"۱۸"), strLit (r"18"),
   strLit (r"24"), strLit (r"اونس"), strLit (r"انس"),
   strLit (r"ارز"), strLit (r"تتر"), strLit (r"btc"), strLit (r"bitcoin"),
   strLit (r"بیت"), strLit (r"بیتکوین")]

/-- Function `looks_like_price_request` from `main.py`. -/

def looks_like_price_request (userText : Str) : Bool :=
  let txt := _norm userText
  !txt.isEmpty && PRICE_KEYWORDS.any (fun k => containsSub k txt)

/-- UtteranceCleaner as the specification words it, on the trimmed raw
message text (the cleaner's input in `handle_message` is pre-trimmed): if
the normalized text starts with the normalized call-name, remove exactly the
call-name's character length from the start of the raw (non-normalized) text
and trim; otherwise, if the space-removed normalized text starts with the
space-removed call-name, split the raw text on the first whitespace run,
discard the first token and keep the trimmed remainder (empty if there is
none); finally, when a handle is configured, remove every literal `@handle`
substring (exact and lower-cased forms) and trim. -/

def cleanUtteranceSpec (text username callName : Str) : Str :=
  let raw := stripWS text
  let afterCall :=
    if (_norm callName).isPrefixOf (_norm raw) then
      stripWS (raw.drop callName.length)
    else if ((_norm callName).filter (fun c => c != 32)).isPrefixOf
        ((_norm raw).filter (fun c => c != 32)) then
      (if pySplit1Rest raw = [] then [] else stripWS (pySplit1Rest raw))
    else raw
  if (_norm username).isEmpty then stripWS afterCall
  else stripWS (stripWS (removePat (64 :: username.map pyLower)
    (removePat (64 :: username) afterCall)))

/-! ## Market matcher (`find_best_matches`) and the price reply -/

/-- A market item from the BRSAPI JSON: each field is `none` when the key is
absent (or null), otherwise the string rendering of its value. -/

structure Item where
  name : Option Str
  name_en : Option Str
  symbol : Option Str
  price : Option Str
  unit : Option Str
  change_value : Option Str
  change_percent : Option Str
  date : Option Str
  time : Option Str
deriving DecidableEq

/-- Python `str(it.get(key, ""))`: the stored string, or `""` for a missing key. -/

def getS (o : Option Str) : Str := o.getD []

/-- Word characters for the regexes of `main.py` (`\w` together with the
explicit `؀-ۿ` range): ASCII letters, digits, underscore, and the
Arabic block covering the Persian text this program handles. -/

def isWordChar (n : Nat) : Bool :=
  decide ((48 ≤ n ∧ n ≤ 57) ∨ (65 ≤ n ∧ n ≤ 90) ∨ (97 ≤ n ∧ n ≤ 122) ∨ n = 95 ∨
    (0x600 ≤ n ∧ n ≤ 0x6FF))

/-- ASCII letters (`[A-Za-z]`). -/

def isAsciiAlpha (n : Nat) : Bool := decide ((65 ≤ n ∧ n ≤ 90) ∨ (97 ≤ n ∧ n ≤ 122))

/-- Result of the symbol-guess search of `find_best_matches` (`re.search`
of a word-bounded group of three to six ASCII letters), upper-cased: the
first maximal word-character run made entirely of 3–6 ASCII letters (any
other run has no admissible word boundary around such a letter block, so it
cannot match). -/

def sym_guess (q : Str) : Option Str :=
  (((runsGo isWordChar [] q).filter (fun rn =>
    rn.all isAsciiAlpha && decide (3 ≤ rn.length) && decide (rn.length ≤ 6))).head?).map
    (List.map pyUpper)

/-- The stop-word set stripped from query tokens in `find_best_matches`. -/

def STOP_TOKENS : List Str :=
  [strLit (r"قیمت"), strLit (r"نرخ"), strLit (r"الان"), strLit (r"امروز"),
   strLit (r"لحظه"), lahzeI, strLit (r"چنده"), strLit (r"چند")]

/-- The token list of `find_best_matches`: the whitespace-split normalized
query with empty and stop-word tokens removed. -/

def queryTokens (q : Str) : List Str :=
  (splitWS (_norm q)).filter (fun t => !t.isEmpty && !STOP_TOKENS.contains t)

/-- The score an item receives in `find_best_matches`, for normalized query
`ql`, token list `tokens` and symbol guess `sg`: +50 for an exact symbol
match, +10 per token found in the haystack, and the +8/+8/+6 domain cues. -/

def scoreItem (ql : Str) (tokens : List Str) (sg : Option Str) (it : Item) : Nat :=
  let name := getS it.name
  let name_en := getS it.name_en
  let symbol := getS it.symbol
  let hay := (name ++ [32] ++ name_en ++ [32] ++ symbol).map pyLower
  let s1 : Nat := match sg with
    | some g => if symbol.map pyUpper = g then 50 else 0
    | none => 0
  let s2 : Nat := 10 * tokens.countP (fun tok => containsSub tok hay)
  let s3 : Nat := if containsSub (strLit (r"دلار")) ql &&
      (containsSub (strLit (r"usd")) (symbol.map pyLower) ||
        containsSub (strLit (r"دلار")) name) then 8 else 0
  let s4 : Nat := if containsSub (strLit (r"سکه")) ql &&
      containsSub (strLit (r"سکه")) name then 8 else 0
  let s5 : Nat := if (containsSub (strLit (r"طلا")) ql ||
        containsSub (strLit (r"۱۸")) ql || containsSub (strLit (r"18")) ql) &&
      (containsSub (strLit (r"طلا")) name ||
        containsSub (strLit (r"gold")) (name_en.map pyLower)) then 6 else 0
  s1 + s2 + s3 + s4 + s5

/-- The score of an item for raw query `q`, with the query-derived inputs
computed once, as in `find_best_matches`. -/

def scoreOf (q : Str) (it : Item) : Nat :=
  scoreItem (_norm q) (queryTokens q) (sym_guess q) it

/-- The `(score, item)` pairs of positive score, in catalog order. -/

def scoredOf (items : List Item) (q : Str) : List (Nat × Item) :=
  items.filterMap (fun it =>
    let s := scoreOf q it
    if 0 < s then some (s, it) else none)

/-- Python `scored.sort(key=lambda x: x[0], reverse=True)`: Python's sort is stable,
and so is `mergeSort`. -/

def sortedScoredOf (items : List Item) (q : Str) : List (Nat × Item) :=
  (scoredOf items q).mergeSort (fun a b => decide (b.1 ≤ a.1))

/-- Function `find_best_matches` from `main.py` (`max_n` is 6 at the call site). -/

def find_best_matches (items : List Item) (q : Str) (maxN : Nat) : List Item :=
  ((sortedScoredOf items q).take maxN).map Prod.snd

/-- Function `normalize_query_for_price` from `main.py`: strip, replace every
character outside word characters / the Arabic block / whitespace by a
space, collapse whitespace runs, strip. -/

def normalize_query_for_price (t : Str) : Str :=
  let t1 := stripWS t
  let t2 := t1.map (fun c => if isWordChar c || pyIsSpace c then c else 32)
  stripWS (collapseWS t2)

/-- The item list rendered by `send_prices`: the best matches for the
normalized query, or — when nothing scored — the first 6 catalog items. -/

def selectionOf (items : List Item) (query : Str) : List Item :=
  let qn := normalize_query_for_price query
  let ms := find_best_matches items qn 6
  if ms.isEmpty then items.take 6 else ms

/-! ## Response formatter (`format_price_lines`) -/

/-- Python truthiness of an optional string (`None` and `""` are falsy). -/

def truthyS : Option Str → Bool
  | none => false
  | some s => !s.isEmpty

/-- Python `a or b` on optional strings. -/

def pyOr (a b : Option Str) : Option Str := if truthyS a then a else b

/-- Python `f"{v}"` for a value that may be missing: Python renders `None`. -/

def renderOpt (o : Option Str) : Str := o.getD (strLit (r"None"))

/-- Python `it.get("name") or it.get("name_en") or it.get("symbol") or "—"`. -/

def nameOf (it : Item) : Str :=
  getS (pyOr (pyOr (pyOr it.name it.name_en) it.symbol) (some (strLit (r"—"))))

/-- Python `f" ({symbol})" if symbol else ""`. -/

def symPartOf (it : Item) : Str :=
  if truthyS it.symbol then strLit (r" (") ++ getS it.symbol ++ strLit (r")") else []

/-- Python `f" {unit}" if unit else ""` (with `unit = it.get("unit") or ""`). -/

def unitPartOf (it : Item) : Str :=
  if truthyS it.unit then 32 :: getS it.unit else []

/-- The change indicator: percent-change when present (`is not None`),
otherwise absolute change when present, otherwise nothing. -/

def changePartOf (it : Item) : Str :=
  match it.change_percent with
  | some chp => strLit (r" | تغییر: ") ++ chp ++ strLit (r"%")
  | none =>
    match it.change_value with
    | some chv => strLit (r" | تغییر: ") ++ chv
    | none => []

/-- One `- name (symbol): price unit | change` line of `format_price_lines`. -/

def renderLine (it : Item) : Str :=
  strLit (r"- ") ++ nameOf it ++ symPartOf it ++ strLit (r": ") ++
    renderOpt it.price ++ unitPartOf it ++ changePartOf it

/-- The header line of `format_price_lines`; the two ZWNJ (U+200C) code
points of the source literal are spliced in explicitly. -/

def headerOf (items : List Item) : Str :=
  strLit (r"قیمت") ++ [0x200c] ++ strLit (r"های لحظه") ++ [0x200c] ++
    strLit (r"ای (BRSAPI)") ++
    (match items with
     | [] => []
     | it :: _ =>
       if truthyS it.date && truthyS it.time then
         strLit (r" — ") ++ getS it.date ++ [32] ++ getS it.time
       else []) ++ strLit (r":")

/-- Python `"\n".join(lines)`. -/

def joinNL : List Str → Str
  | [] => []
  | [l] => l
  | l :: ls => l ++ 10 :: joinNL ls

/-- Function `format_price_lines` from `main.py`: the header, a newline, and the
newline-joined item lines. -/

def format_price_lines (items : List Item) : Str :=
  headerOf items ++ 10 :: joinNL (items.map renderLine)

/-- The number of lines of a rendered text, counted as `str.splitlines`
does: one more than the number of newline code points, except that a
trailing newline opens no further line, and empty text has no lines. -/

def countLines (s : Str) : Nat :=
  if s = [] then 0
  else s.count 10 + (if s.getLast? = some 10 then 0 else 1)

/-- No field of the item contains a newline code point. -/

def itemNoNL (it : Item) : Prop :=
  (10 : Nat) ∉ getS it.name ∧ (10 : Nat) ∉ getS it.name_en ∧
  (10 : Nat) ∉ getS it.symbol ∧ (10 : Nat) ∉ getS it.price ∧
  (10 : Nat) ∉ getS it.unit ∧ (10 : Nat) ∉ getS it.change_value ∧
  (10 : Nat) ∉ getS it.change_percent ∧ (10 : Nat) ∉ getS it.date ∧
  (10 : Nat) ∉ getS it.time

instance (it : Item) : Decidable (itemNoNL it) := by
  unfold itemNoNL
  infer_instance

/-! ## Message handler (`handle_message`) and the price reply (`send_prices`) -/

/-- Outcome of `fetch_brsapi_items()`: the parsed item list, or the raised
exception's type name and message. -/

inductive FetchOutcome where
  | ok (items : List Item)
  | exc (ename emsg : Str)
deriving DecidableEq

/-- Outcome of `avalai_chat(msgs)`: the extracted completion text, or the
raised exception's type name and message. -/

inductive ChatOutcome where
  | ok (answer : Str)
  | exc (ename emsg : Str)
deriving DecidableEq

/-- The reply text produced by `send_prices` in `main.py` (the function only
sends a reply; it never touches `history`).  `brsKeySet` models `BRSAPI_KEY`
being configured and `fetch` the market-data call's outcome; the `except`
clause renders any exception as the formatted error string.  The ZWNJ of the
missing-key literal is spliced in explicitly. -/

def send_prices (brsKeySet : Bool) (fetch : FetchOutcome) (query : Str) : Str :=
  if !brsKeySet then
    strLit (r"کلید BRSAPI_KEY ست نشده. تو Render توی Env Vars اضافه") ++ [0x200c] ++
      strLit (r"اش کن.")
  else
    match fetch with
    | FetchOutcome.exc en em =>
      strLit (r"خطا در گرفتن قیمت: ") ++ en ++ strLit (r": ") ++ em.take 200
    | FetchOutcome.ok items =>
      if items.isEmpty then strLit (r"از API دیتا نگرفتم یا خروجی خالی بود.")
      else format_price_lines (selectionOf items query)

/-- Python `f"خطا: {type(e).__name__}: {str(e)[:200]}"`. -/

def errAnswer (ename emsg : Str) : Str :=
  strLit (r"خطا: ") ++ ename ++ strLit (r": ") ++ emsg.take 200

/-- The assistant answer of the completion branch: the completion text, the
fixed no-answer string when that text is empty, or the formatted error
string when the call raised. -/

def answerOf (chat : ChatOutcome) : Str :=
  match chat with
  | ChatOutcome.ok a => if a.isEmpty then strLit (r"پاسخی دریافت نشد.") else a
  | ChatOutcome.exc en em => errAnswer en em

/-- Function `handle_message` from `main.py` as a pure transformation: it receives the
message context (group flag, reply target, bot identity, raw text, user id),
the history store, and the outcomes of the two network calls, and returns the
optional reply text together with the updated store.  Local variables of the
source (`text.strip()`, `user_text`, `answer`) are inlined. -/

def handle_message (isGroup replyToBot : Bool) (username callName text : Str)
    (uid : Nat) (hist : Nat → List Turn) (chat : ChatOutcome)
    (brsKeySet : Bool) (fetch : FetchOutcome) : Option Str × (Nat → List Turn) :=
  if text.isEmpty then (none, hist)
  else if isGroup && !should_reply_in_group text username callName replyToBot then
    (none, hist)
  else if (clean_user_text (stripWS text) username callName).isEmpty then (none, hist)
  else if looks_like_price_request (clean_user_text (stripWS text) username callName) then
    (some (send_prices brsKeySet fetch (clean_user_text (stripWS text) username callName)),
     hist)
  else
    (some (answerOf chat),
     Function.update hist uid
       (dequeAppend (MAX_TURNS * 2)
         (dequeAppend (MAX_TURNS * 2) (hist uid)
           (Turn.mk (strLit (r"user")) (clean_user_text (stripWS text) username callName)))
         (Turn.mk (strLit (r"assistant")) (answerOf chat))))

/-! ## Theorems -/

theorem dequeAppend_eq_lastN (cap : Nat) (buf : List α) (x : α) :
    dequeAppend cap buf x = lastN cap (buf ++ [x]) := rfl

theorem lastN_append_one (cap : Nat) (l : List α) (x : α) :
    lastN cap (lastN cap l ++ [x]) = lastN cap (l ++ [x]) := by
  unfold lastN
  rcases Nat.le_total l.length cap with hle | hge
  · simp [Nat.sub_eq_zero_of_le hle]
  · rcases Nat.eq_zero_or_pos cap with hc | hc
    · subst hc
      simp [List.drop_length]
    · have hdlen : (List.drop (l.length - cap) l).length = cap := by
        simp [List.length_drop]; omega
      rw [List.length_append, List.length_append, hdlen]
      simp only [List.length_cons, List.length_nil]
      have h1 : cap + 1 - cap = 1 := by omega
      have h2 : (1 : Nat) ≤ (List.drop (l.length - cap) l).length := by omega
      rw [h1, List.drop_append_of_le_length h2,
        List.drop_append_of_le_length (by omega : l.length + 1 - cap ≤ l.length),
        List.drop_drop]
      congr 2
      omega

theorem foldl_dequeAppend (cap : Nat) (ts : List α) (pre : List α) :
    ts.foldl (dequeAppend cap) (lastN cap pre) = lastN cap (pre ++ ts) := by
  induction ts generalizing pre with
  | nil => simp
  | cons t ts ih =>
    rw [List.foldl_cons, dequeAppend_eq_lastN, lastN_append_one, ih (pre ++ [t])]
    simp

theorem appendTurns_apply (h : Nat → List Turn) (uid : Nat) (ts : List Turn) :
    appendTurns h uid ts uid = ts.foldl (dequeAppend (MAX_TURNS * 2)) (h uid) := by
  induction ts generalizing h with
  | nil => rfl
  | cons t ts ih =>
    show appendTurns (appendTurn h uid t) uid ts uid = _
    rw [ih, List.foldl_cons]
    congr 1
    simp [appendTurn]

/-- C1: starting from the empty store, after appending any sequence of turns
for a user, that user's buffer holds at most `2 × MAX_TURNS = 20` entries and
is exactly the most recently appended turns in insertion order (the oldest
turns having been evicted). -/
theorem history_bound_fifo (uid : Nat) (ts : List Turn) :
    (appendTurns emptyHistory uid ts uid).length ≤ MAX_TURNS * 2 ∧
    appendTurns emptyHistory uid ts uid = ts.drop (ts.length - MAX_TURNS * 2) := by
  have hbase : (emptyHistory uid) = lastN (MAX_TURNS * 2) ([] : List Turn) := rfl
  have h := foldl_dequeAppend (MAX_TURNS * 2) ts ([] : List Turn)
  rw [appendTurns_apply, hbase, h]
  constructor
  · simp only [lastN, List.length_drop, List.nil_append]
    omega
  · simp [lastN]

theorem pyLower_idem (n : Nat) : pyLower (pyLower n) = pyLower n := by
  unfold pyLower
  split_ifs <;> omega

theorem pyLower_space_false (n : Nat) (h : pyIsSpace n = false) :
    pyIsSpace (pyLower n) = false := by
  unfold pyLower
  split_ifs with hc
  · unfold pyIsSpace
    simp
    omega
  · exact h

theorem pyLower_invis_false (n : Nat) (h : isInvisChar n = false) :
    isInvisChar (pyLower n) = false := by
  unfold pyLower
  split_ifs with hc
  · unfold isInvisChar
    simp
    omega
  · exact h

theorem mem_of_getLast? {l : List α} {g : α} (h : l.getLast? = some g) : g ∈ l := by
  have hne : l ≠ [] := by
    intro hnil
    subst hnil
    simp at h
  rw [List.getLast?_eq_getLast l hne] at h
  exact (Option.some_inj.mp h) ▸ List.getLast_mem hne

theorem mem_collapseGo (s : Str) (b : Bool) (c : Nat) (h : c ∈ collapseGo b s) :
    c = 32 ∨ c ∈ s := by
  induction s generalizing b with
  | nil => simp [collapseGo] at h
  | cons d ds ih =>
    unfold collapseGo at h
    cases hd : pyIsSpace d with
    | true =>
      rw [hd] at h
      simp only [if_true] at h
      rcases List.mem_append.mp h with hpad | hrec
      · cases b with
        | true => simp at hpad
        | false =>
          simp at hpad
          exact Or.inl hpad
      · rcases ih true hrec with h32 | hm
        · exact Or.inl h32
        · exact Or.inr (List.mem_cons_of_mem _ hm)
    | false =>
      rw [hd] at h
      simp only [Bool.false_eq_true, if_false] at h
      rcases List.mem_cons.mp h with rfl | hm
      · exact Or.inr (List.mem_cons_self _ _)
      · rcases ih false hm with h32 | hmm
        · exact Or.inl h32
        · exact Or.inr (List.mem_cons_of_mem _ hmm)

theorem collapseGo_space32 (s : Str) (b : Bool) (c : Nat) (h : c ∈ collapseGo b s)
    (hsp : pyIsSpace c = true) : c = 32 := by
  induction s generalizing b with
  | nil => simp [collapseGo] at h
  | cons d ds ih =>
    unfold collapseGo at h
    cases hd : pyIsSpace d with
    | true =>
      rw [hd] at h
      simp only [if_true] at h
      rcases List.mem_append.mp h with hpad | hrec
      · cases b with
        | true => simp at hpad
        | false => simpa using hpad
      · exact ih true hrec
    | false =>
      rw [hd] at h
      simp only [Bool.false_eq_true, if_false] at h
      rcases List.mem_cons.mp h with rfl | hm
      · rw [hd] at hsp
        exact absurd hsp (by simp)
      · exact ih false hm

theorem head?_collapseGo_true (s : Str) (c : Nat)
    (h : (collapseGo true s).head? = some c) : pyIsSpace c = false := by
  induction s with
  | nil => simp [collapseGo] at h
  | cons d ds ih =>
    unfold collapseGo at h
    cases hd : pyIsSpace d with
    | true =>
      rw [hd] at h
      simp only [if_true, if_pos, List.nil_append] at h
      exact ih h
    | false =>
      rw [hd] at h
      simp only [Bool.false_eq_true, if_false, List.head?_cons] at h
      exact (Option.some_inj.mp h) ▸ hd

theorem head?_collapseGo_false (s : Str)
    (hh : ∀ c, s.head? = some c → pyIsSpace c = false) (c : Nat)
    (h : (collapseGo false s).head? = some c) : pyIsSpace c = false := by
  cases s with
  | nil => simp [collapseGo] at h
  | cons d ds =>
    have hd : pyIsSpace d = false := hh d rfl
    unfold collapseGo at h
    rw [hd] at h
    simp only [Bool.false_eq_true, if_false, List.head?_cons] at h
    exact (Option.some_inj.mp h) ▸ hd

theorem chain'_collapseGo (s : Str) (b : Bool) :
    (collapseGo b s).Chain' (fun a c => ¬(pyIsSpace a = true ∧ pyIsSpace c = true)) := by
  induction s generalizing b with
  | nil => simp [collapseGo]
  | cons d ds ih =>
    unfold collapseGo
    cases hd : pyIsSpace d with
    | true =>
      simp only [if_true]
      cases b with
      | true =>
        simpa using ih true
      | false =>
        simp only [Bool.false_eq_true, if_false, List.singleton_append]
        rw [List.chain'_cons']
        refine ⟨?_, ih true⟩
        intro y hy
        have : pyIsSpace y = false := head?_collapseGo_true ds y (by simpa using hy)
        simp [this]
    | false =>
      simp only [Bool.false_eq_true, if_false]
      rw [List.chain'_cons']
      refine ⟨?_, ih false⟩
      intro y _
      simp [hd]

theorem collapseGo_true_eq_false (s : Str)
    (hh : ∀ c, s.head? = some c → pyIsSpace c = false) :
    collapseGo true s = collapseGo false s := by
  cases s with
  | nil => rfl
  | cons d ds =>
    have hd : pyIsSpace d = false := hh d rfl
    unfold collapseGo
    rw [hd]
    simp

theorem collapseGo_eq_self (s : Str)
    (hch : s.Chain' (fun a c => ¬(pyIsSpace a = true ∧ pyIsSpace c = true)))
    (h32 : ∀ c ∈ s, pyIsSpace c = true → c = 32) :
    collapseGo false s = s := by
  induction s with
  | nil => rfl
  | cons d ds ih =>
    unfold collapseGo
    cases hd : pyIsSpace d with
    | true =>
      have hd32 : d = 32 := h32 d (List.mem_cons_self _ _) hd
      simp only [if_true, List.singleton_append]
      have hds : collapseGo true ds = ds := by
        have heq : collapseGo true ds = collapseGo false ds := by
          apply collapseGo_true_eq_false
          intro c hc
          cases ds with
          | nil => simp at hc
          | cons e es =>
            simp only [List.head?_cons, Option.some_inj] at hc
            subst hc
            have hrel := (List.chain'_cons.mp hch).1
            by_contra hcsp
            simp only [Bool.not_eq_false] at hcsp
            exact hrel ⟨hd, hcsp⟩
        rw [heq]
        exact ih ((List.chain'_cons'.mp hch).2) (fun c hc hcs => h32 c (List.mem_cons_of_mem _ hc) hcs)
      rw [hds, hd32]
      simp
    | false =>
      simp only [Bool.false_eq_true, if_false]
      rw [ih ((List.chain'_cons'.mp hch).2) (fun c hc hcs => h32 c (List.mem_cons_of_mem _ hc) hcs)]

theorem collapseGo_false_ne_nil (s : Str) (hne : s ≠ []) : collapseGo false s ≠ [] := by
  cases s with
  | nil => exact absurd rfl hne
  | cons d ds =>
    unfold collapseGo
    cases hd : pyIsSpace d <;> simp

theorem collapseGo_true_ne_nil (s : Str) (c : Nat) (hc : c ∈ s)
    (hcs : pyIsSpace c = false) : collapseGo true s ≠ [] := by
  induction s with
  | nil => simp at hc
  | cons d ds ih =>
    unfold collapseGo
    cases hd : pyIsSpace d with
    | true =>
      simp only [if_true]
      rcases List.mem_cons.mp hc with rfl | hm
      · rw [hd] at hcs; exact absurd hcs (by simp)
      · simpa using ih hm
    | false => simp

theorem getLast?_collapseGo (s : Str)
    (hl : ∀ c, s.getLast? = some c → pyIsSpace c = false) (b : Bool) (c : Nat)
    (h : (collapseGo b s).getLast? = some c) : pyIsSpace c = false := by
  induction s generalizing b with
  | nil => simp [collapseGo] at h
  | cons d ds ih =>
    unfold collapseGo at h
    cases hd : pyIsSpace d with
    | true =>
      rw [hd] at h
      simp only [if_true] at h
      cases ds with
      | nil =>
        exact absurd (hl d rfl) (by simp [hd])
      | cons e es =>
        have hlds : ∀ x, (e :: es).getLast? = some x → pyIsSpace x = false := by
          intro x hx
          exact hl x (by rw [List.getLast?_cons_cons]; exact hx)
        have hg : ∃ g, (e :: es).getLast? = some g := by
          cases hgl : (e :: es).getLast? with
          | none => exact absurd (List.getLast?_eq_none_iff.mp hgl) (by simp)
          | some g => exact ⟨g, rfl⟩
        rcases hg with ⟨g, hgl⟩
        have hgm : g ∈ e :: es := mem_of_getLast? hgl
        have hgns : pyIsSpace g = false := hlds g hgl
        have hne : collapseGo true (e :: es) ≠ [] := collapseGo_true_ne_nil _ g hgm hgns
        rw [List.getLast?_append] at h
        cases hX : (collapseGo true (e :: es)).getLast? with
        | none => exact absurd (List.getLast?_eq_none_iff.mp hX) hne
        | some x =>
          rw [hX] at h
          simp only [Option.or, Option.some_inj] at h
          subst h
          exact ih hlds true hX
    | false =>
      rw [hd] at h
      simp only [Bool.false_eq_true, if_false] at h
      cases ds with
      | nil =>
        simp only [collapseGo, List.getLast?_singleton, Option.some_inj] at h
        subst h
        exact hd
      | cons e es =>
        have hlds : ∀ x, (e :: es).getLast? = some x → pyIsSpace x = false := by
          intro x hx
          exact hl x (by rw [List.getLast?_cons_cons]; exact hx)
        have hne : collapseGo false (e :: es) ≠ [] := collapseGo_false_ne_nil _ (by simp)
        rcases List.exists_cons_of_ne_nil hne with ⟨x, xs, hxeq⟩
        rw [hxeq, List.getLast?_cons_cons] at h
        rw [← hxeq] at h
        exact ih hlds false h

theorem dropWhile_eq_self_of_head (p : Nat → Bool) (l : Str)
    (hh : ∀ c, l.head? = some c → p c = false) : l.dropWhile p = l := by
  cases l with
  | nil => rfl
  | cons c cs => simp [List.dropWhile_cons, hh c rfl]

theorem stripWS_getLast (l : Str) (c : Nat)
    (h : (stripWS l).getLast? = some c) : pyIsSpace c = false := by
  unfold stripWS at h
  rw [List.getLast?_reverse] at h
  have := List.head?_dropWhile_not pyIsSpace ((l.dropWhile pyIsSpace).reverse)
  rw [h] at this
  exact this

theorem stripWS_head (l : Str) (c : Nat)
    (h : (stripWS l).head? = some c) : pyIsSpace c = false := by
  unfold stripWS at h
  rw [List.head?_reverse] at h
  rcases List.dropWhile_suffix (l := (l.dropWhile pyIsSpace).reverse) pyIsSpace with ⟨t, ht⟩
  have hMlast : ((l.dropWhile pyIsSpace).reverse).getLast? = some c := by
    rw [← ht, List.getLast?_append, h]
    rfl
  rw [List.getLast?_reverse] at hMlast
  have := List.head?_dropWhile_not pyIsSpace l
  rw [hMlast] at this
  exact this

theorem stripWS_eq_self (l : Str)
    (hh : ∀ c, l.head? = some c → pyIsSpace c = false)
    (hl : ∀ c, l.getLast? = some c → pyIsSpace c = false) : stripWS l = l := by
  unfold stripWS
  rw [dropWhile_eq_self_of_head pyIsSpace l hh]
  rw [dropWhile_eq_self_of_head pyIsSpace l.reverse
    (fun c hc => hl c (by rwa [List.head?_reverse] at hc))]
  exact List.reverse_reverse l

theorem mem_stripWS (l : Str) (c : Nat) (h : c ∈ stripWS l) : c ∈ l := by
  unfold stripWS at h
  rw [List.mem_reverse] at h
  have h1 := ((List.dropWhile_suffix pyIsSpace).sublist).mem h
  rw [List.mem_reverse] at h1
  exact ((List.dropWhile_suffix pyIsSpace).sublist).mem h1

theorem map_id_of_mem (f : Nat → Nat) (l : Str) (h : ∀ c ∈ l, f c = c) :
    l.map f = l := by
  induction l with
  | nil => rfl
  | cons c cs ih =>
    simp only [List.map_cons, h c (List.mem_cons_self _ _)]
    rw [ih (fun x hx => h x (List.mem_cons_of_mem _ hx))]

theorem norm_invis_free (s : Str) (c : Nat) (h : c ∈ _norm s) :
    isInvisChar c = false := by
  unfold _norm collapseWS at h
  rcases mem_collapseGo _ _ _ h with rfl | hm
  · decide
  · rcases List.mem_map.mp hm with ⟨d, hd, rfl⟩
    have hdf := mem_stripWS _ _ hd
    have := (List.mem_filter.mp hdf).2
    simp only [Bool.not_eq_true'] at this
    exact pyLower_invis_false d this

theorem norm_lower_fixed (s : Str) (c : Nat) (h : c ∈ _norm s) :
    pyLower c = c := by
  unfold _norm collapseWS at h
  rcases mem_collapseGo _ _ _ h with rfl | hm
  · decide
  · rcases List.mem_map.mp hm with ⟨d, _, rfl⟩
    exact pyLower_idem d

theorem norm_head (s : Str) (c : Nat) (h : (_norm s).head? = some c) :
    pyIsSpace c = false := by
  unfold _norm collapseWS at h
  apply head?_collapseGo_false _ _ c h
  intro x hx
  rw [List.head?_map] at hx
  cases hy : (stripWS (s.filter (fun c => !isInvisChar c))).head? with
  | none => rw [hy] at hx; simp at hx
  | some y =>
    rw [hy] at hx
    simp only [Option.map_some', Option.some_inj] at hx
    subst hx
    exact pyLower_space_false y (stripWS_head _ y hy)

theorem norm_getLast (s : Str) (c : Nat) (h : (_norm s).getLast? = some c) :
    pyIsSpace c = false := by
  unfold _norm collapseWS at h
  apply getLast?_collapseGo _ ?_ false c h
  intro x hx
  rw [List.getLast?_map] at hx
  cases hy : (stripWS (s.filter (fun c => !isInvisChar c))).getLast? with
  | none => rw [hy] at hx; simp at hx
  | some y =>
    rw [hy] at hx
    simp only [Option.map_some', Option.some_inj] at hx
    subst hx
    exact pyLower_space_false y (stripWS_getLast _ y hy)

theorem norm_chain' (s : Str) :
    (_norm s).Chain' (fun a c => ¬(pyIsSpace a = true ∧ pyIsSpace c = true)) :=
  chain'_collapseGo _ false

theorem norm_space32 (s : Str) (c : Nat) (h : c ∈ _norm s)
    (hsp : pyIsSpace c = true) : c = 32 :=
  collapseGo_space32 _ false c h hsp

/-- C2: `_norm` is idempotent — normalizing twice yields the same string as
normalizing once. -/
theorem norm_idempotent (s : Str) : _norm (_norm s) = _norm s := by
  have h1 : (_norm s).filter (fun c => !isInvisChar c) = _norm s :=
    List.filter_eq_self.mpr (fun c hc => by
      simp only [Bool.not_eq_true']
      exact norm_invis_free s c hc)
  have h2 : stripWS (_norm s) = _norm s :=
    stripWS_eq_self _ (norm_head s) (norm_getLast s)
  have h3 : (_norm s).map pyLower = _norm s :=
    map_id_of_mem pyLower _ (norm_lower_fixed s)
  have h4 : collapseWS (_norm s) = _norm s :=
    collapseGo_eq_self _ (norm_chain' s) (norm_space32 s)
  show collapseWS ((stripWS ((_norm s).filter (fun c => !isInvisChar c))).map pyLower) = _norm s
  rw [h1, h2, h3, h4]

theorem containsSub_iff (pat s : Str) : containsSub pat s = true ↔ pat <:+: s := by
  induction s with
  | nil =>
    rw [show containsSub pat [] = pat.isPrefixOf [] from rfl,
      List.isPrefixOf_iff_prefix, List.prefix_nil, List.infix_nil]
  | cons c cs ih =>
    rw [show containsSub pat (c :: cs) = (pat.isPrefixOf (c :: cs) || containsSub pat cs)
      from rfl]
    rw [Bool.or_eq_true, List.isPrefixOf_iff_prefix, ih, List.infix_cons_iff]

/-- C3: in a group, for a message with non-empty text, the gate answers true
exactly when the normalized text starts with the normalized call-name, or the
space-removed normalized text starts with the space-removed call-name, or a
handle is configured and the normalized text contains `@` followed by the
normalized handle, or the message is a direct reply to a bot message. -/
theorem group_gate_iff (text username callName : Str) (replyToBot : Bool)
    (hne : text ≠ []) :
    should_reply_in_group text username callName replyToBot = true ↔
      (_norm callName <+: _norm text ∨
        ((_norm callName).filter (fun c => c != 32) <+:
          ((_norm text).filter (fun c => c != 32))) ∨
        (_norm username ≠ [] ∧ (64 :: _norm username) <:+: _norm text) ∨
        replyToBot = true) := by
  have h0 : text.isEmpty = false := List.isEmpty_eq_false.mpr hne
  unfold should_reply_in_group
  rw [h0]
  simp only [Bool.false_eq_true, if_false]
  split_ifs with hA hB
  · simp only [true_iff]
    simp only [Bool.or_eq_true, List.isPrefixOf_iff_prefix] at hA
    rcases hA with h | h
    · exact Or.inl h
    · exact Or.inr (Or.inl h)
  · simp only [true_iff]
    simp only [Bool.and_eq_true, Bool.not_eq_true', List.isEmpty_eq_false,
      containsSub_iff] at hB
    exact Or.inr (Or.inr (Or.inl hB))
  · simp only [Bool.or_eq_true, List.isPrefixOf_iff_prefix, not_or] at hA
    simp only [Bool.and_eq_true, Bool.not_eq_true', List.isEmpty_eq_false,
      containsSub_iff, not_and] at hB
    constructor
    · intro h
      exact Or.inr (Or.inr (Or.inr h))
    · intro h
      rcases h with h | h | ⟨h1, h2⟩ | h
      · exact absurd h hA.1
      · exact absurd h hA.2
      · exact absurd h2 (hB h1)
      · exact h

/-- C3 witness: with call-name "honey bear", no handle and no reply target,
the compact message "honeybear hello" instantiates the gate equivalence. -/
theorem group_gate_iff_witness :
    should_reply_in_group (strLit (r"honeybear hello")) [] (strLit (r"honey bear")) false = true ↔
      (_norm (strLit (r"honey bear")) <+: _norm (strLit (r"honeybear hello")) ∨
        ((_norm (strLit (r"honey bear"))).filter (fun c => c != 32) <+:
          ((_norm (strLit (r"honeybear hello"))).filter (fun c => c != 32))) ∨
        (_norm [] ≠ [] ∧ (64 :: _norm []) <:+: _norm (strLit (r"honeybear hello"))) ∨
        false = true) :=
  group_gate_iff _ _ _ _ (by decide)

/-- C7: the utterance cleaner behaves exactly as specified (call-name prefix
removal by raw character count, compact-form first-token removal, then
mention removal, each followed by trimming); in particular with call-name
"Honey Bear" it cleans "HONEY BEAR  hello" to "hello". -/
theorem clean_user_text_spec :
    (∀ text username callName,
      clean_user_text text username callName = cleanUtteranceSpec text username callName) ∧
    clean_user_text (strLit (r"HONEY BEAR  hello")) [] (strLit (r"Honey Bear")) =
      strLit (r"hello") := by
  constructor
  · intro text username callName
    unfold clean_user_text cleanUtteranceSpec
    rw [apply_ite stripWS]
  · decide

/-- C8: the price-intent classifier answers true exactly when the normalized
utterance is non-empty and contains at least one keyword of the fixed set;
in particular it accepts "قیمت طلا چنده" and rejects "سلام خوبی؟". -/
theorem price_intent_iff :
    (∀ u, looks_like_price_request u = true ↔
      (_norm u ≠ [] ∧ ∃ k ∈ PRICE_KEYWORDS, k <:+: _norm u)) ∧
    looks_like_price_request (strLit (r"قیمت طلا چنده")) = true ∧
    looks_like_price_request (strLit (r"سلام خوبی؟")) = false := by
  refine ⟨?_, by decide, by decide⟩
  intro u
  unfold looks_like_price_request
  simp only [Bool.and_eq_true, Bool.not_eq_true', List.isEmpty_eq_false,
    List.any_eq_true, containsSub_iff]

theorem mem_scoredOf (items : List Item) (q : Str) (p : Nat × Item)
    (h : p ∈ scoredOf items q) : p.1 = scoreOf q p.2 ∧ 0 < p.1 ∧ p.2 ∈ items := by
  unfold scoredOf at h
  rcases List.mem_filterMap.mp h with ⟨it, hit, heq⟩
  simp only [] at heq
  split_ifs at heq with hs
  rcases Option.some_inj.mp heq with rfl
  exact ⟨rfl, hs, hit⟩

/-- C4: the matcher returns at most `maxN` items, every returned item has a
positive score, returned items are ordered by descending score, and items of
equal score keep their catalog order (the sorted score class equals the
unsorted one, and the returned class is a sublist of it). -/
theorem find_best_matches_spec (items : List Item) (q : Str) (n : Nat) :
    (find_best_matches items q n).length ≤ n ∧
    (∀ it ∈ find_best_matches items q n, 0 < scoreOf q it) ∧
    ((find_best_matches items q n).map (scoreOf q)).Pairwise (fun a b => b ≤ a) ∧
    (∀ k, (sortedScoredOf items q).filter (fun p => p.1 == k) =
      (scoredOf items q).filter (fun p => p.1 == k)) ∧
    (∀ k, (((sortedScoredOf items q).take n).filter (fun p => p.1 == k)).Sublist
      ((scoredOf items q).filter (fun p => p.1 == k))) := by
  have hperm : (sortedScoredOf items q).Perm (scoredOf items q) :=
    List.mergeSort_perm _ _
  have htr : ∀ (a b c : Nat × Item), decide (b.1 ≤ a.1) = true →
      decide (c.1 ≤ b.1) = true → decide (c.1 ≤ a.1) = true := by
    intro a b c hab hbc
    simp only [decide_eq_true_eq] at *
    omega
  have hto : ∀ (a b : Nat × Item),
      ((fun a b : Nat × Item => decide (b.1 ≤ a.1)) a b ||
       (fun a b : Nat × Item => decide (b.1 ≤ a.1)) b a) = true := by
    intro a b
    simp only [Bool.or_eq_true, decide_eq_true_eq]
    omega
  have hsorted : (sortedScoredOf items q).Pairwise
      (fun a b : Nat × Item => decide (b.1 ≤ a.1) = true) :=
    List.sorted_mergeSort htr hto (scoredOf items q)
  have hmemtake : ∀ p ∈ (sortedScoredOf items q).take n, p ∈ scoredOf items q := by
    intro p hp
    exact hperm.mem_iff.mp ((List.take_sublist n _).mem hp)
  have hstabil : ∀ k, (sortedScoredOf items q).filter (fun p => p.1 == k) =
      (scoredOf items q).filter (fun p => p.1 == k) := by
    intro k
    have hcsub : ((scoredOf items q).filter (fun p => p.1 == k)).Sublist (scoredOf items q) :=
      List.filter_sublist _
    have hcall : ∀ p ∈ (scoredOf items q).filter (fun p => p.1 == k), p.1 = k := by
      intro p hp
      simpa using (List.mem_filter.mp hp).2
    have hcpair : ((scoredOf items q).filter (fun p => p.1 == k)).Pairwise
        (fun a b : Nat × Item => decide (b.1 ≤ a.1) = true) := by
      apply List.pairwise_of_forall_mem_list
      intro a ha b hb
      simp [hcall a ha, hcall b hb]
    have hcsorted : ((scoredOf items q).filter (fun p => p.1 == k)).Sublist
        (sortedScoredOf items q) :=
      List.sublist_mergeSort htr hto hcpair hcsub
    have hpermf : ((sortedScoredOf items q).filter (fun p => p.1 == k)).Perm
        ((scoredOf items q).filter (fun p => p.1 == k)) :=
      hperm.filter _
    have hfid : ((scoredOf items q).filter (fun p => p.1 == k)).filter
        (fun p => p.1 == k) = (scoredOf items q).filter (fun p => p.1 == k) :=
      List.filter_eq_self.mpr (fun a ha => by simpa using hcall a ha)
    have hsubf : ((scoredOf items q).filter (fun p => p.1 == k)).Sublist
        ((sortedScoredOf items q).filter (fun p => p.1 == k)) :=
      hfid ▸ List.Sublist.filter _ hcsorted
    exact (hsubf.eq_of_length hpermf.length_eq.symm).symm
  refine ⟨?_, ?_, ?_, hstabil, ?_⟩
  · unfold find_best_matches
    rw [List.length_map, List.length_take]
    omega
  · intro it hit
    unfold find_best_matches at hit
    rcases List.mem_map.mp hit with ⟨p, hp, rfl⟩
    have h := mem_scoredOf _ _ _ (hmemtake p hp)
    rw [← h.1]
    exact h.2.1
  · unfold find_best_matches
    rw [List.map_map, List.pairwise_map]
    have h1 := List.Pairwise.sublist (List.take_sublist n _) hsorted
    refine List.Pairwise.imp_of_mem ?_ h1
    intro a b ha hb hab
    have hA := mem_scoredOf _ _ _ (hmemtake a ha)
    have hB := mem_scoredOf _ _ _ (hmemtake b hb)
    simp only [decide_eq_true_eq] at hab
    show scoreOf q b.2 ≤ scoreOf q a.2
    rw [← hA.1, ← hB.1]
    exact hab
  · intro k
    rw [← hstabil k]
    exact List.Sublist.filter _ (List.take_sublist n _)

/-- C5: when no catalog item scores above zero for the normalized query, the
selection rendered by `send_prices` is exactly the first 6 catalog items,
unchanged and in catalog order; and the selection is never empty when the
catalog is non-empty. -/
theorem fallback_selection (items : List Item) (query : Str) :
    ((∀ it ∈ items, scoreOf (normalize_query_for_price query) it = 0) →
      selectionOf items query = items.take 6) ∧
    (items ≠ [] → selectionOf items query ≠ []) := by
  constructor
  · intro hz
    unfold selectionOf
    have hsc : scoredOf items (normalize_query_for_price query) = [] := by
      unfold scoredOf
      rw [List.filterMap_eq_nil_iff]
      intro it hit
      simp [hz it hit]
    have hfb : find_best_matches items (normalize_query_for_price query) 6 = [] := by
      unfold find_best_matches sortedScoredOf
      rw [hsc, List.mergeSort_nil]
      rfl
    show (if (find_best_matches items (normalize_query_for_price query) 6).isEmpty = true
      then List.take 6 items
      else find_best_matches items (normalize_query_for_price query) 6) = List.take 6 items
    rw [hfb]
    simp
  · intro hne
    show (if (find_best_matches items (normalize_query_for_price query) 6).isEmpty = true
      then List.take 6 items
      else find_best_matches items (normalize_query_for_price query) 6) ≠ []
    split_ifs with h
    · simp [List.take_eq_nil_iff, hne]
    · intro hnil
      rw [hnil] at h
      simp at h

/-- C5 witness: a one-item catalog and the query "foo", on which the item
scores zero, instantiate both fallback properties. -/
theorem fallback_selection_witness :
    selectionOf [Item.mk (some (strLit (r"دلار"))) none (some (strLit (r"USD")))
        none none none none none none] (strLit (r"foo")) =
      (List.take 6 [Item.mk (some (strLit (r"دلار"))) none (some (strLit (r"USD")))
        none none none none none none]) ∧
    selectionOf [Item.mk (some (strLit (r"دلار"))) none (some (strLit (r"USD")))
        none none none none none none] (strLit (r"foo")) ≠ [] :=
  ⟨(fallback_selection _ _).1 (by decide), (fallback_selection _ _).2 (by decide)⟩

theorem nameOf_cases (it : Item) :
    nameOf it = getS it.name ∨ nameOf it = getS it.name_en ∨
    nameOf it = getS it.symbol ∨ nameOf it = strLit (r"—") := by
  unfold nameOf pyOr
  split_ifs <;> simp [getS]

theorem renderLine_no_nl (it : Item) (h : itemNoNL it) : (10 : Nat) ∉ renderLine it := by
  obtain ⟨h1, h2, h3, h4, h5, h6, h7, h8, h9⟩ := h
  have hn : (10 : Nat) ∉ nameOf it := by
    rcases nameOf_cases it with he | he | he | he <;> rw [he]
    · exact h1
    · exact h2
    · exact h3
    · decide
  have hsym : (10 : Nat) ∉ symPartOf it := by
    unfold symPartOf
    split_ifs
    · simp only [List.mem_append]
      rintro ((hm | hm) | hm)
      · exact absurd hm (by decide)
      · exact h3 hm
      · exact absurd hm (by decide)
    · simp
  have hpr : (10 : Nat) ∉ renderOpt it.price := by
    cases hp : it.price with
    | none => decide
    | some s =>
      rw [hp] at h4
      simpa [renderOpt, getS] using h4
  have hun : (10 : Nat) ∉ unitPartOf it := by
    unfold unitPartOf
    split_ifs
    · simp only [List.mem_cons]
      rintro (hm | hm)
      · omega
      · exact h5 hm
    · simp
  have hch : (10 : Nat) ∉ changePartOf it := by
    unfold changePartOf
    cases hp : it.change_percent with
    | some chp =>
      rw [hp] at h7
      have h7' : (10 : Nat) ∉ chp := by simpa [getS] using h7
      simp only [List.mem_append]
      rintro ((hm | hm) | hm)
      · exact absurd hm (by decide)
      · exact h7' hm
      · exact absurd hm (by decide)
    | none =>
      cases hv : it.change_value with
      | some chv =>
        rw [hv] at h6
        have h6' : (10 : Nat) ∉ chv := by simpa [getS] using h6
        simp only [List.mem_append]
        rintro (hm | hm)
        · exact absurd hm (by decide)
        · exact h6' hm
      | none => simp
  unfold renderLine
  simp only [List.mem_append]
  rintro ((((((hm | hm) | hm) | hm) | hm) | hm) | hm)
  · exact absurd hm (by decide)
  · exact hn hm
  · exact hsym hm
  · exact absurd hm (by decide)
  · exact hpr hm
  · exact hun hm
  · exact hch hm

theorem renderLine_ne_nil (it : Item) : renderLine it ≠ [] := by
  intro hnil
  have := congrArg List.length hnil
  simp [renderLine, List.length_append, strLit] at this

theorem headerOf_no_nl (items : List Item) (h : ∀ it ∈ items, itemNoNL it) :
    (10 : Nat) ∉ headerOf items := by
  have hdt : (10 : Nat) ∉ (match items with
      | [] => ([] : Str)
      | it :: _ =>
        if truthyS it.date && truthyS it.time then
          strLit (r" — ") ++ getS it.date ++ [32] ++ getS it.time
        else []) := by
    cases items with
    | nil => simp
    | cons it its =>
      obtain ⟨_, _, _, _, _, _, _, h8, h9⟩ := h it (List.mem_cons_self _ _)
      show (10 : Nat) ∉ (if truthyS it.date && truthyS it.time then
        strLit (r" — ") ++ getS it.date ++ [32] ++ getS it.time else [])
      split_ifs
      · simp only [List.mem_append, List.mem_cons]
        rintro (((hm | hm) | hm) | hm)
        · exact absurd hm (by decide)
        · exact h8 hm
        · exact absurd hm (by decide)
        · exact h9 hm
      · simp
  unfold headerOf
  simp only [List.mem_append]
  rintro ((((((hm | hm) | hm) | hm) | hm) | hm) | hm)
  all_goals first
    | exact absurd hm (by decide)
    | exact hdt hm

theorem joinNL_props (L : List Str) (hne : L ≠ [])
    (h : ∀ l ∈ L, l ≠ [] ∧ (10 : Nat) ∉ l) :
    (joinNL L).count 10 = L.length - 1 ∧ joinNL L ≠ [] ∧
      (joinNL L).getLast? ≠ some 10 := by
  induction L with
  | nil => exact absurd rfl hne
  | cons l ls ih =>
    cases ls with
    | nil =>
      have hl := h l (List.mem_cons_self _ _)
      refine ⟨?_, hl.1, ?_⟩
      · show l.count 10 = 1 - 1
        simp [List.count_eq_zero.mpr hl.2]
      · intro hgl
        exact hl.2 (mem_of_getLast? hgl)
    | cons m ms =>
      have hl := h l (List.mem_cons_self _ _)
      have hJ := ih (by simp) (fun x hx => h x (List.mem_cons_of_mem _ hx))
      have hjoin : joinNL (l :: m :: ms) = l ++ 10 :: joinNL (m :: ms) := rfl
      refine ⟨?_, ?_, ?_⟩
      · rw [hjoin, List.count_append, List.count_eq_zero.mpr hl.2,
          List.count_cons_self, hJ.1]
        simp
      · rw [hjoin]
        simp
      · rw [hjoin, List.getLast?_append]
        rcases List.exists_cons_of_ne_nil hJ.2.1 with ⟨x, xs, hxeq⟩
        rw [hxeq, List.getLast?_cons_cons, ← hxeq]
        cases hY : (joinNL (m :: ms)).getLast? with
        | none => exact absurd (List.getLast?_eq_none_iff.mp hY) hJ.2.1
        | some y =>
          intro hcon
          rw [show (some y).or l.getLast? = some y from rfl] at hcon
          apply hJ.2.2
          rw [hY]
          exact hcon

/-- C9 (amended): for every list of items none of whose rendered fields
contains a newline, the formatter's output has a line count equal to the
item count plus exactly one header line. -/

theorem format_lines_count (items : List Item) (h : ∀ it ∈ items, itemNoNL it) :
    countLines (format_price_lines items) = items.length + 1 := by
  cases items with
  | nil => decide
  | cons it its =>
    have hhd := headerOf_no_nl (it :: its) h
    have hlines : ∀ l ∈ (it :: its).map renderLine, l ≠ [] ∧ (10 : Nat) ∉ l := by
      intro l hl
      rcases List.mem_map.mp hl with ⟨x, hx, rfl⟩
      exact ⟨renderLine_ne_nil x, renderLine_no_nl x (h x hx)⟩
    have hJ := joinNL_props _ (by simp) hlines
    have hfmt : format_price_lines (it :: its) =
        headerOf (it :: its) ++ 10 :: joinNL ((it :: its).map renderLine) := rfl
    have hne : format_price_lines (it :: its) ≠ [] := by
      rw [hfmt]
      simp
    have hcount : (format_price_lines (it :: its)).count 10 = (it :: its).length := by
      rw [hfmt, List.count_append, List.count_eq_zero.mpr hhd,
        List.count_cons_self, hJ.1]
      simp [List.length_map]
    have hlast : (format_price_lines (it :: its)).getLast? ≠ some 10 := by
      rw [hfmt, List.getLast?_append]
      rcases List.exists_cons_of_ne_nil hJ.2.1 with ⟨x, xs, hxeq⟩
      rw [hxeq, List.getLast?_cons_cons, ← hxeq]
      cases hY : (joinNL ((it :: its).map renderLine)).getLast? with
      | none => exact absurd (List.getLast?_eq_none_iff.mp hY) hJ.2.1
      | some y =>
        intro hcon
        rw [show (some y).or (headerOf (it :: its)).getLast? = some y from rfl] at hcon
        apply hJ.2.2
        rw [hY]
        exact hcon
    unfold countLines
    rw [if_neg hne, hcount, if_neg hlast]

/-- C9 counterexample: an item whose name field embeds a newline yields three
output lines instead of item count + 1 = 2, so the unconditional line-count
claim fails on the code. -/
theorem format_lines_count_cex :
    ¬ (countLines (format_price_lines
        [Item.mk (some (strLit (r"a") ++ 10 :: strLit (r"b"))) none none
          none none none none none none]) =
      [Item.mk (some (strLit (r"a") ++ 10 :: strLit (r"b"))) none none
        none none none none none none].length + 1) := by decide

/-- C9 witness: a newline-free one-item catalog yields exactly two lines. -/
theorem format_lines_count_witness :
    countLines (format_price_lines
      [Item.mk (some (strLit (r"x"))) none none none none none none none none]) =
    [Item.mk (some (strLit (r"x"))) none none none none none none none none].length + 1 :=
  format_lines_count _ (by decide)

theorem dequeAppend_two (cap : Nat) (l : List α) (a b : α) :
    dequeAppend cap (dequeAppend cap l a) b = lastN cap (l ++ [a, b]) := by
  rw [dequeAppend_eq_lastN, dequeAppend_eq_lastN, lastN_append_one]
  congr 1
  simp

theorem lastN_two_suffix (cap : Nat) (hcap : 2 ≤ cap) (l : List α) (a b : α) :
    [a, b] <:+ lastN cap (l ++ [a, b]) := by
  unfold lastN
  rw [List.length_append]
  refine ⟨List.drop (l.length + [a, b].length - cap) l, ?_⟩
  rw [List.drop_append_of_le_length (by simp; omega)]

/-- C6: when a non-price message reaches the completion call and that call
raises, the handler replies with the formatted error string naming the
exception (never propagating it), the user's buffer becomes its old content
followed by exactly the new user turn (cleaned utterance) and assistant turn
(error string), capped at `2 × MAX_TURNS`, with those two turns at the tail,
and no other user's buffer changes. -/
theorem completion_error_turns (isGroup replyToBot : Bool)
    (username callName text : Str) (uid : Nat) (hist : Nat → List Turn)
    (en em : Str) (brsKeySet : Bool) (fetch : FetchOutcome)
    (hne : text ≠ [])
    (hgate : isGroup = true →
      should_reply_in_group text username callName replyToBot = true)
    (hcln : clean_user_text (stripWS text) username callName ≠ [])
    (hprice : looks_like_price_request
      (clean_user_text (stripWS text) username callName) = false) :
    (handle_message isGroup replyToBot username callName text uid hist
        (ChatOutcome.exc en em) brsKeySet fetch).1 = some (errAnswer en em) ∧
    (handle_message isGroup replyToBot username callName text uid hist
        (ChatOutcome.exc en em) brsKeySet fetch).2 uid =
      lastN (MAX_TURNS * 2) (hist uid ++
        [Turn.mk (strLit (r"user")) (clean_user_text (stripWS text) username callName),
         Turn.mk (strLit (r"assistant")) (errAnswer en em)]) ∧
    (∀ u, u ≠ uid →
      (handle_message isGroup replyToBot username callName text uid hist
        (ChatOutcome.exc en em) brsKeySet fetch).2 u = hist u) ∧
    [Turn.mk (strLit (r"user")) (clean_user_text (stripWS text) username callName),
     Turn.mk (strLit (r"assistant")) (errAnswer en em)] <:+
      ((handle_message isGroup replyToBot username callName text uid hist
        (ChatOutcome.exc en em) brsKeySet fetch).2 uid) := by
  have h0 : text.isEmpty = false := List.isEmpty_eq_false.mpr hne
  have h1 : (isGroup && !should_reply_in_group text username callName replyToBot) = false := by
    cases hg : isGroup
    · rfl
    · rw [hgate hg]
      rfl
  have h2 : (clean_user_text (stripWS text) username callName).isEmpty = false :=
    List.isEmpty_eq_false.mpr hcln
  have hred : handle_message isGroup replyToBot username callName text uid hist
      (ChatOutcome.exc en em) brsKeySet fetch =
      (some (errAnswer en em),
       Function.update hist uid
         (dequeAppend (MAX_TURNS * 2)
           (dequeAppend (MAX_TURNS * 2) (hist uid)
             (Turn.mk (strLit (r"user"))
               (clean_user_text (stripWS text) username callName)))
           (Turn.mk (strLit (r"assistant")) (errAnswer en em)))) := by
    unfold handle_message
    rw [h0, h1, h2, hprice]
    simp only [Bool.false_eq_true, if_false]
    rfl
  refine ⟨?_, ?_, ?_, ?_⟩
  · rw [hred]
  · rw [hred]
    show Function.update hist uid _ uid = _
    rw [Function.update_same, dequeAppend_two]
  · intro u hu
    rw [hred]
    exact Function.update_noteq hu _ hist
  · rw [hred]
    show [_, _] <:+ Function.update hist uid _ uid
    rw [Function.update_same, dequeAppend_two]
    exact lastN_two_suffix (MAX_TURNS * 2) (by decide) _ _ _

/-- C6 witness: a direct non-price message whose completion call times out
instantiates the error-turn property. -/
theorem completion_error_turns_witness :
    (handle_message false false [] (strLit (r"سس خرسی")) (strLit (r"hello there"))
      7 (fun _ => []) (ChatOutcome.exc (strLit (r"ReadTimeout")) (strLit (r"timed out")))
      true (FetchOutcome.ok [])).1 =
      some (errAnswer (strLit (r"ReadTimeout")) (strLit (r"timed out"))) :=
  (completion_error_turns false false [] (strLit (r"سس خرسی")) (strLit (r"hello there"))
    7 (fun _ => []) (strLit (r"ReadTimeout")) (strLit (r"timed out")) true
    (FetchOutcome.ok [])
    (by decide) (fun hg => absurd hg (by decide)) (by decide) (by decide)).1

/-- C10: a message classified as a price query is answered through the price
path and leaves the entire history store — every user's buffer — unchanged,
whether the market-data lookup succeeds or fails. -/
theorem price_path_preserves_history (isGroup replyToBot : Bool)
    (username callName text : Str) (uid : Nat) (hist : Nat → List Turn)
    (chat : ChatOutcome) (brsKeySet : Bool) (fetch : FetchOutcome)
    (hne : text ≠ [])
    (hgate : isGroup = true →
      should_reply_in_group text username callName replyToBot = true)
    (hcln : clean_user_text (stripWS text) username callName ≠ [])
    (hprice : looks_like_price_request
      (clean_user_text (stripWS text) username callName) = true) :
    (handle_message isGroup replyToBot username callName text uid hist
        chat brsKeySet fetch).2 = hist ∧
    (handle_message isGroup replyToBot username callName text uid hist
        chat brsKeySet fetch).1 =
      some (send_prices brsKeySet fetch
        (clean_user_text (stripWS text) username callName)) := by
  have h0 : text.isEmpty = false := List.isEmpty_eq_false.mpr hne
  have h1 : (isGroup && !should_reply_in_group text username callName replyToBot) = false := by
    cases hg : isGroup
    · rfl
    · rw [hgate hg]
      rfl
  have h2 : (clean_user_text (stripWS text) username callName).isEmpty = false :=
    List.isEmpty_eq_false.mpr hcln
  have hred : handle_message isGroup replyToBot username callName text uid hist
      chat brsKeySet fetch =
      (some (send_prices brsKeySet fetch
        (clean_user_text (stripWS text) username callName)), hist) := by
    unfold handle_message
    rw [h0, h1, h2, hprice]
    simp only [Bool.false_eq_true, if_false, if_true]
  exact ⟨by rw [hred], by rw [hred]⟩

/-- C10 witness: the price query "قیمت طلا چنده" (with a failing market
fetch) instantiates the frame property: the store is unchanged. -/
theorem price_path_preserves_history_witness :
    (handle_message false false [] (strLit (r"سس خرسی")) (strLit (r"قیمت طلا چنده"))
      3 (fun _ => []) (ChatOutcome.ok []) true
      (FetchOutcome.exc (strLit (r"ConnectError")) (strLit (r"boom")))).2 =
      (fun _ => ([] : List Turn)) :=
  (price_path_preserves_history false false [] (strLit (r"سس خرسی"))
    (strLit (r"قیمت طلا چنده")) 3 (fun _ => []) (ChatOutcome.ok []) true
    (FetchOutcome.exc (strLit (r"ConnectError")) (strLit (r"boom")))
    (by decide) (fun hg => absurd hg (by decide)) (by decide) (by decide)).1
